import Mathlib

/-
Verification of the carbon-layout installer (install-as-us-variant.py).

The development shallowly embeds the programs two patchers and its
orchestration:

- the flat symbol-file side: the append performed by install() and the
  line scanner of remove() (lines 145-158 of the source);
- the XML rules side: modify_xkb_rules(action), modelled as a pure
  transformation on a rose tree mirroring ElementTree semantics
  (document-order search for layout elements, first-child lookups,
  per-descriptor reconciliation of variant entries);
- the orchestrator: install() and remove() over an abstract file-system
  state, producing an event trace (backups, writes, warnings, parse
  failures) and an exit code.

Machine integers play no role; strings are modelled as Lean strings and
Python str.strip as ASCII whitespace trimming.  Pretty-print whitespace
introduced by ET.indent is abstracted away: XML documents are compared
structurally, which is the comparison the specification itself uses
(identical modulo whitespace-only reflow).
-/

/-! ### String utilities mirroring the Python primitives -/

/-- ASCII whitespace characters stripped by Python str.strip(). -/
def isPyWS (c : Char) : Bool :=
  c == ' ' || c == '\t' || c == '\n' || c == '\r' || c == '\x0b' || c == '\x0c'

/-- Python line.strip(): remove leading and trailing whitespace. -/
def pyStrip (s : String) : String :=
  String.mk (((s.data.dropWhile isPyWS).reverse.dropWhile isPyWS).reverse)

/-- Python s.startswith(p), on the character lists of the two strings. -/
def strStarts (p s : String) : Bool :=
  p.data.isPrefixOf s.data

/-- Remove every whitespace character of a string (used to compare file
contents modulo whitespace-only reflow). -/
def dropWS (s : String) : String :=
  String.mk (s.data.filter (fun c => !isPyWS c))

/-! ### The managed descriptors (VARIANTS_TO_INSTALL) -/

/-- VARIANTS_TO_INSTALL of the source, in dict insertion order. -/
def VARIANTS_TO_INSTALL : List (String × String) :=
  [("carbon", "English (Carbon)"), ("carbon-angle", "English (Carbon, Angle Mod)")]

/-- First header pattern tested by remove(): xkb_symbols "carbon". -/
def headerCarbon : String := "xkb_symbols \"carbon\""

/-- Second header pattern tested by remove(): xkb_symbols "carbon-angle". -/
def headerAngle : String := "xkb_symbols \"carbon-angle\""

/-- The header test of remove() (source lines 148-149): the stripped line
starts with one of the two managed block headers. -/
def isManagedHeader (l : String) : Bool :=
  strStarts headerCarbon (pyStrip l) || strStarts headerAngle (pyStrip l)

/-- The closing-marker test of remove() (source line 151): the stripped
line STARTS WITH the two characters closing brace and semicolon. -/
def isCloseMarker (l : String) : Bool :=
  strStarts "\x7d;" (pyStrip l)

/-! ### The flat-file operations -/

/-- The append performed by install() (source lines 120-122): two newline
separators followed by the source blob, written after the existing
content, which is never read. -/
def flatInstall (content blob : String) : String :=
  content ++ "\n\n" ++ blob

/-- The flat file content after n successive runs of install(). -/
def flatAfterInstalls : Nat → String → String → String
  | 0, content, _ => content
  | n + 1, content, blob => flatInstall (flatAfterInstalls n content blob) blob

/-- Helper for readLines: accumulate characters of the current line in
reverse; a newline terminates the line and is kept on it, as with Python
readlines(). -/
def readLinesAux : List Char → List Char → List String
  | acc, [] => if acc.isEmpty then [] else [String.mk acc.reverse]
  | acc, c :: rest =>
    if c = '\n' then String.mk (acc.reverse ++ ['\n']) :: readLinesAux [] rest
    else readLinesAux (c :: acc) rest

/-- Python f.readlines(): split after every newline, keeping the newline
at the end of each line. -/
def readLines (s : String) : List String :=
  readLinesAux [] s.data

/-- The block-removal scanner of remove() (source lines 145-155).  The
Python loop keeps a boolean skip flag: a line whose stripped content
starts with a managed header raises the flag; while the flag is up, a
line whose stripped content starts with the closing marker lowers the
flag and is dropped; a line is kept exactly when the flag (after the
header test) is down.  The first argument is the flag value entering the
line. -/
def removeScan : Bool → List String → List String
  | _, [] => []
  | skip, l :: ls =>
    if skip || isManagedHeader l then
      if isCloseMarker l then removeScan false ls
      else removeScan true ls
    else l :: removeScan false ls

/-- The two states of the scanner as the design document describes it. -/
inductive ScanMode where
  | outside
  | insideManaged
deriving DecidableEq

/-- Modelled from the claim sentence of C2: the scanner described by the
specification, with the closing condition a line whose TRIMMED CONTENT
EQUALS the closing marker.  Written as the explicit two-state machine of
design note 9. -/
def claimScan : ScanMode → List String → List String
  | .outside, [] => []
  | .insideManaged, [] => []
  | .outside, l :: ls =>
    if isManagedHeader l then claimScan .insideManaged ls
    else l :: claimScan .outside ls
  | .insideManaged, l :: ls =>
    if pyStrip l == "\x7d;" then claimScan .outside ls
    else claimScan .insideManaged ls

/-- The amended scanner description: identical to claimScan except that
the closing condition is the code one, stripped content STARTING WITH
the closing marker. -/
def specScan : ScanMode → List String → List String
  | .outside, [] => []
  | .insideManaged, [] => []
  | .outside, l :: ls =>
    if isManagedHeader l then specScan .insideManaged ls
    else l :: specScan .outside ls
  | .insideManaged, l :: ls =>
    if isCloseMarker l then specScan .outside ls
    else specScan .insideManaged ls

/-! ### Basic facts about the scanner -/

theorem isPrefixOf_head {a : Char} {as t : List Char}
    (h : (a :: as).isPrefixOf t = true) : t.head? = some a := by
  cases t with
  | nil => simp [List.isPrefixOf] at h
  | cons c t2 =>
    rw [List.isPrefixOf, Bool.and_eq_true] at h
    have : a = c := by simpa using h.1
    simp [this]

/-- A managed header line never also matches the closing-marker test:
their first stripped characters differ. -/
theorem managed_not_close {l : String} (h : isManagedHeader l = true) :
    isCloseMarker l = false := by
  have h2 : strStarts headerCarbon (pyStrip l) = true ∨
      strStarts headerAngle (pyStrip l) = true := by
    have h3 := h
    unfold isManagedHeader at h3
    simpa using h3
  by_contra hcm
  have hc : ("\x7d;" : String).data.isPrefixOf (pyStrip l).data = true := by
    have h4 : isCloseMarker l = true := by simpa using hcm
    unfold isCloseMarker strStarts at h4
    exact h4
  have e2 : (pyStrip l).data.head? = some '\x7d' := by
    have hdec : ("\x7d;" : String).data = '\x7d' :: ";".data := by decide
    rw [hdec] at hc
    exact isPrefixOf_head hc
  rcases h2 with h1 | h1
  · have e1 : (pyStrip l).data.head? = some 'x' := by
      have h5 : headerCarbon.data.isPrefixOf (pyStrip l).data = true := by
        unfold strStarts at h1; exact h1
      have hdec : headerCarbon.data = 'x' :: "kb_symbols \"carbon\"".data := by decide
      rw [hdec] at h5
      exact isPrefixOf_head h5
    rw [e1] at e2
    simp at e2
  · have e1 : (pyStrip l).data.head? = some 'x' := by
      have h5 : headerAngle.data.isPrefixOf (pyStrip l).data = true := by
        unfold strStarts at h1; exact h1
      have hdec : headerAngle.data = 'x' :: "kb_symbols \"carbon-angle\"".data := by decide
      rw [hdec] at h5
      exact isPrefixOf_head h5
    rw [e1] at e2
    simp at e2

/-- Every line kept by the scanner fails the managed-header test: the
output of remove() contains no managed block header, whatever the input
and the incoming flag. -/
theorem removeScan_no_managed (ls : List String) :
    ∀ b, ∀ l ∈ removeScan b ls, isManagedHeader l = false := by
  induction ls with
  | nil => intro b l hl; simp [removeScan] at hl
  | cons x xs ih =>
    intro b l hl
    by_cases hA : (b || isManagedHeader x) = true
    · rw [removeScan, if_pos hA] at hl
      by_cases hB : isCloseMarker x = true
      · rw [if_pos hB] at hl; exact ih false l hl
      · rw [if_neg hB] at hl; exact ih true l hl
    · rw [removeScan, if_neg hA] at hl
      simp only [Bool.or_eq_true, not_or] at hA
      rcases List.mem_cons.mp hl with rfl | hl2
      · simpa using hA.2
      · exact ih false l hl2

/-- Lines that are not managed headers pass through the scanner verbatim
while the flag is down. -/
theorem removeScan_plain_chunk (chunk rest : List String)
    (h : ∀ l ∈ chunk, isManagedHeader l = false) :
    removeScan false (chunk ++ rest) = chunk ++ removeScan false rest := by
  induction chunk with
  | nil => rfl
  | cons x xs ih =>
    have hx : isManagedHeader x = false := h x (by simp)
    have : (false || isManagedHeader x) = false := by simp [hx]
    rw [List.cons_append, removeScan, if_neg (by simp [this])]
    rw [ih (fun l hl => h l (by simp [hl]))]
    rfl

/-- While the flag is up, lines failing the closing-marker test are
dropped and the flag stays up. -/
theorem removeScan_inside_chunk (body tail : List String)
    (h : ∀ l ∈ body, isCloseMarker l = false) :
    removeScan true (body ++ tail) = removeScan true tail := by
  induction body with
  | nil => rfl
  | cons x xs ih =>
    have hx : isCloseMarker x = false := h x (by simp)
    rw [List.cons_append, removeScan, if_pos (by simp), if_neg (by simp [hx])]
    exact ih (fun l hl => h l (by simp [hl]))

/-- A well-terminated managed block is removed entirely: its header, its
body lines (none of which may match the closing test), and its closing
line all disappear, and scanning continues outside. -/
theorem removeScan_managed_block (hline : String) (body : List String)
    (cline : String) (rest : List String)
    (hh : isManagedHeader hline = true)
    (hb : ∀ l ∈ body, isCloseMarker l = false)
    (hc : isCloseMarker cline = true) :
    removeScan false (hline :: (body ++ cline :: rest)) = removeScan false rest := by
  have h1 : isCloseMarker hline = false := managed_not_close hh
  rw [removeScan, if_pos (by simp [hh]), if_neg (by simp [h1])]
  rw [removeScan_inside_chunk body (cline :: rest) hb]
  rw [removeScan, if_pos (by simp), if_pos hc]

/-- The code scanner agrees with the two-state machine specScan (the
design-note formulation with the starts-with closing test), from any
pair of corresponding states. -/
theorem removeScan_eq_specScan (ls : List String) :
    removeScan false ls = specScan .outside ls ∧
      removeScan true ls = specScan .insideManaged ls := by
  induction ls with
  | nil => exact ⟨rfl, rfl⟩
  | cons x xs ih =>
    constructor
    · by_cases hx : isManagedHeader x = true
      · have h1 : isCloseMarker x = false := managed_not_close hx
        rw [removeScan, if_pos (by simp [hx]), if_neg (by simp [h1])]
        rw [specScan, if_pos hx]
        exact ih.2
      · have hx2 : isManagedHeader x = false := by simpa using hx
        rw [removeScan, if_neg (by simp [hx2]), specScan, if_neg hx]
        rw [ih.1]
    · rw [removeScan, if_pos (by simp), specScan]
      by_cases hcx : isCloseMarker x = true
      · rw [if_pos hcx, if_pos hcx]; exact ih.1
      · rw [if_neg hcx, if_neg hcx]; exact ih.2

/-! ### Block-structured view of the flat file (data model of the spec) -/

/-- Modelled from the spec (section 3 data model): the flat definitions
file is an ordered sequence of lines outside blocks and of blocks, a
block being a header line, opaque body lines, and a closing line. -/
inductive BlockItem where
  | plainLine (l : String)
  | block (headLine : String) (body : List String) (closeLine : String)

/-- The lines of an item, in order. -/
def itemLines : BlockItem → List String
  | .plainLine l => [l]
  | .block h body c => h :: (body ++ [c])

/-- An item is managed when it is a block whose header line matches the
managed-header test. -/
def isManagedItem : BlockItem → Bool
  | .plainLine _ => false
  | .block h _ _ => isManagedHeader h

/-- Well-formedness of an item for the scanner: a plain line is not a
managed header; a managed block has a closing line matching the closing
test and no body line matching it; a non-managed block contains no line
matching the managed-header test. -/
def itemOK : BlockItem → Bool
  | .plainLine l => !isManagedHeader l
  | .block h body c =>
    if isManagedHeader h then
      (body.all fun l => !isCloseMarker l) && isCloseMarker c
    else
      (body.all fun l => !isManagedHeader l) && !isManagedHeader c

/-- On a file made of well-formed items, the scanner returns exactly the
lines of the non-managed items, in order and verbatim: managed blocks
are deleted whole and everything else is byte-identical. -/
theorem removeScan_items (items : List BlockItem)
    (h : items.all itemOK = true) :
    removeScan false (items.flatMap itemLines) =
      (items.filter fun it => !isManagedItem it).flatMap itemLines := by
  induction items with
  | nil => rfl
  | cons it its ih =>
    have h1 : itemOK it = true ∧ its.all itemOK = true := by
      simpa [List.all_cons, Bool.and_eq_true] using h
    have ih2 := ih h1.2
    cases it with
    | plainLine l =>
      have hl : isManagedHeader l = false := by
        have := h1.1
        simpa [itemOK] using this
      rw [List.flatMap_cons]
      rw [show itemLines (BlockItem.plainLine l) = [l] from rfl]
      rw [removeScan_plain_chunk [l] _ (by intro m hm; simp at hm; rw [hm]; exact hl)]
      rw [ih2]
      rw [List.filter_cons_of_pos (by simp [isManagedItem]), List.flatMap_cons]
      rfl
    | block hd body c =>
      by_cases hmg : isManagedHeader hd = true
      · have hok : (body.all fun l => !isCloseMarker l) = true ∧ isCloseMarker c = true := by
          have := h1.1
          simpa [itemOK, hmg, Bool.and_eq_true] using this
        rw [List.flatMap_cons]
        have hsplit : itemLines (BlockItem.block hd body c) ++ its.flatMap itemLines =
            hd :: (body ++ c :: its.flatMap itemLines) := by
          simp [itemLines]
        rw [hsplit]
        rw [removeScan_managed_block hd body c _ hmg
          (by intro m hm
              have := List.all_eq_true.mp hok.1 m hm
              simpa using this)
          hok.2]
        rw [ih2]
        rw [List.filter_cons_of_neg (by simp [isManagedItem, hmg])]
      · have hmg2 : isManagedHeader hd = false := by
          simpa using hmg
        have hok : (body.all fun l => !isManagedHeader l) = true ∧
            isManagedHeader c = false := by
          have := h1.1
          simpa [itemOK, hmg2, Bool.and_eq_true] using this
        rw [List.flatMap_cons]
        rw [removeScan_plain_chunk (itemLines (BlockItem.block hd body c)) _
          (by intro m hm
              simp [itemLines] at hm
              rcases hm with rfl | hm2 | rfl
              · exact hmg2
              · have := List.all_eq_true.mp hok.1 m hm2
                simpa using this
              · exact hok.2)]
        rw [ih2]
        rw [List.filter_cons_of_pos (by simp [isManagedItem, hmg2]), List.flatMap_cons]

/-! ### XML model (ElementTree semantics for modify_xkb_rules) -/

/-- An XML element: tag, text (the text before the first child, None by
default, as in ElementTree), and the ordered list of children.
Attributes and the tail/indentation whitespace rewritten by ET.indent
are not modelled: the source never reads or writes attributes, and the
claims compare documents modulo whitespace-only reflow. -/
inductive XML where
  | elem (tag : String) (text : Option String) (children : List XML)

def XML.tag : XML → String
  | .elem t _ _ => t

def XML.text : XML → Option String
  | .elem _ x _ => x

def XML.children : XML → List XML
  | .elem _ _ ch => ch

/-- Direct children carrying a given tag. -/
def childElems (t : String) (e : XML) : List XML :=
  e.children.filter (fun c => c.tag == t)

/-- ElementTree find("./configItem/name"): scan configItem children in
order and inside each scan name children in order; the first hit. -/
def ciName? (e : XML) : Option XML :=
  ((childElems "configItem" e).flatMap (childElems "name")).head?

/-- The source test: name_el is not None and name_el.text == n. -/
def hasNameText (n : String) (e : XML) : Bool :=
  match ciName? e with
  | some el => el.text == some n
  | none => false

/-- BASE_LAYOUT of the source. -/
def BASE_LAYOUT : String := "us"

/-- The base-layout search test of source lines 56-59: a layout element
whose configItem/name text equals the base layout id. -/
def isBaseLayout (e : XML) : Bool :=
  e.tag == "layout" && hasNameText BASE_LAYOUT e

/-- The variant-match test of source lines 73-75. -/
def isVariantNamed (n : String) (e : XML) : Bool :=
  e.tag == "variant" && hasNameText n e

/-- A variant element matching one of the managed descriptor ids. -/
def isManagedVariant (e : XML) : Bool :=
  isVariantNamed "carbon" e || isVariantNamed "carbon-angle" e

/-- The fresh variant element built at source lines 87-92:
variant / configItem / (name with the id, description with the display
name). -/
def newVariant (n d : String) : XML :=
  .elem "variant" none
    [.elem "configItem" none
      [.elem "name" (some n) [], .elem "description" (some d) []]]

inductive PatchAction where
  | install
  | remove
deriving DecidableEq

/-- One iteration of the descriptor loop (source lines 70-94) acting on
the children of the variantList: all variant children whose
configItem/name text equals the descriptor id are removed; on install a
fresh element for the descriptor is then appended as the last child. -/
def reconcile (act : PatchAction) (cs : List XML) (nd : String × String) : List XML :=
  match act with
  | .remove => cs.filter (fun v => !isVariantNamed nd.1 v)
  | .install => cs.filter (fun v => !isVariantNamed nd.1 v) ++ [newVariant nd.1 nd.2]

/-- The full descriptor loop, over VARIANTS_TO_INSTALL in dict order. -/
def reconcileAll (act : PatchAction) (cs : List XML) : List XML :=
  VARIANTS_TO_INSTALL.foldl (reconcile act) cs

/-- The variantList handling of source lines 66-94, on the children of
the located base layout: the first child tagged variantList has its
children reconciled in place; when there is none, install appends a
fresh empty variantList (ET.SubElement) which the descriptor loop then
fills, while remove touches nothing (the loop body never runs on a
missing list). -/
def patchChildren (act : PatchAction) : List XML → List XML
  | [] =>
    match act with
    | .install => [XML.elem "variantList" none (reconcileAll .install [])]
    | .remove => []
  | c :: cs =>
    if c.tag == "variantList" then
      XML.elem c.tag c.text (reconcileAll act c.children) :: cs
    else c :: patchChildren act cs

/-- The whole per-layout mutation: tag and text untouched, children
patched. -/
def patchLayout (act : PatchAction) (lay : XML) : XML :=
  XML.elem lay.tag lay.text (patchChildren act lay.children)

/-- First node satisfying p among the descendants listed (document
order: a node before its descendants, a subtree before its right
siblings), as root.findall(".//...") enumerates them. -/
def findFirstL (p : XML → Bool) : List XML → Option XML
  | [] => none
  | XML.elem t x ch :: cs =>
    if p (XML.elem t x ch) then some (XML.elem t x ch)
    else
      match findFirstL p ch with
      | some r => some r
      | none => findFirstL p cs

/-- Rewrite the first node satisfying p (same order), rebuilding the
spine above it; none when no node matches. -/
def replaceFirstL (p : XML → Bool) (f : XML → XML) : List XML → Option (List XML)
  | [] => none
  | XML.elem t x ch :: cs =>
    if p (XML.elem t x ch) then some (f (XML.elem t x ch) :: cs)
    else
      match replaceFirstL p f ch with
      | some ch2 => some (XML.elem t x ch2 :: cs)
      | none => (replaceFirstL p f cs).map (fun cs2 => XML.elem t x ch :: cs2)

/-- modify_xkb_rules on one parsed document: the first descendant layout
matching the base-layout test is patched in place; when none exists the
document is returned unchanged (source lines 62-64 log and continue,
without writing). -/
def modifyDoc (act : PatchAction) (d : XML) : XML :=
  match replaceFirstL isBaseLayout (patchLayout act) d.children with
  | some ch2 => XML.elem d.tag d.text ch2
  | none => d

/-- The base layout the source locates, when present. -/
def locateBase (d : XML) : Option XML :=
  findFirstL isBaseLayout d.children

def hasBaseLayout (d : XML) : Bool :=
  (locateBase d).isSome

/-- layout_node.find("variantList"): first direct child so tagged. -/
def firstVariantList (lay : XML) : Option XML :=
  lay.children.find? (fun c => c.tag == "variantList")

/-- The children of the first variantList of a layout ([] when absent). -/
def vlChildren (lay : XML) : List XML :=
  match firstVariantList lay with
  | some vl => vl.children
  | none => []

/-- The variant-list entries under the base layout of a document. -/
def baseVariantChildren (d : XML) : List XML :=
  match locateBase d with
  | some lay => vlChildren lay
  | none => []

/-- Managed entries under the base layout. -/
def managedVariantCount (d : XML) : Nat :=
  (baseVariantChildren d).countP isManagedVariant

/-- Number of Removed-variant messages remove() prints for a document:
one per managed variant entry deleted from the base variant list
(source line 81).  Ids are distinct, so counting on the original list is
exact. -/
def removedMessageCount (d : XML) : Nat :=
  VARIANTS_TO_INSTALL.foldl
    (fun k nd => k + (baseVariantChildren d).countP (isVariantNamed nd.1)) 0

/-- Replace the first base-layout subtree by a fixed marker: two
documents with equal images under this map are identical everywhere
outside the first base-layout subtree. -/
def eraseAtFirstBase (d : XML) : XML :=
  match replaceFirstL isBaseLayout (fun _ => XML.elem "erased" none []) d.children with
  | some ch2 => XML.elem d.tag d.text ch2
  | none => d

/-- n-fold application of the install action to a document. -/
def docAfterInstalls : Nat → XML → XML
  | 0, d => d
  | n + 1, d => modifyDoc .install (docAfterInstalls n d)

/-! ### Shallow observations used to track search stability -/

/-- Tag and text of a node. -/
def obsTT (e : XML) : String × Option String := (e.tag, e.text)

/-- Texts of the name-tagged children of a node. -/
def nameTexts (e : XML) : List (Option String) :=
  (childElems "name" e).map XML.text

/-- Text of the configItem/name element of a node, when present. -/
def obsName (e : XML) : Option (Option String) :=
  (ciName? e).map XML.text

/-! ### Basic XML lemmas -/

theorem XML.eta (e : XML) : XML.elem e.tag e.text e.children = e := by
  cases e; rfl

theorem hasNameText_iff (n : String) (e : XML) :
    hasNameText n e = true ↔ obsName e = some (some n) := by
  unfold hasNameText obsName
  cases h : ciName? e with
  | none => simp
  | some el => simp

theorem hasNameText_congr (n : String) {a b : XML} (h : obsName a = obsName b) :
    hasNameText n a = hasNameText n b := by
  cases hA : hasNameText n a with
  | true =>
    have := (hasNameText_iff n a).mp hA
    rw [h] at this
    exact ((hasNameText_iff n b).mpr this).symm
  | false =>
    cases hB : hasNameText n b with
    | false => rfl
    | true =>
      exfalso
      have h3 := (hasNameText_iff n b).mp hB
      rw [← h] at h3
      have h4 := (hasNameText_iff n a).mpr h3
      rw [hA] at h4
      exact Bool.false_ne_true h4

theorem isBaseLayout_congr {a b : XML} (h1 : obsTT a = obsTT b)
    (h2 : obsName a = obsName b) : isBaseLayout a = isBaseLayout b := by
  unfold isBaseLayout
  have ht : a.tag = b.tag := congrArg Prod.fst h1
  rw [ht, hasNameText_congr BASE_LAYOUT h2]

/-- Pointwise equality of tags and texts of two child lists transports
the filtered text projection. -/
theorem filter_map_text_congr (t : String) :
    ∀ (l1 l2 : List XML), l1.map obsTT = l2.map obsTT →
      (l1.filter (fun c => c.tag == t)).map XML.text =
        (l2.filter (fun c => c.tag == t)).map XML.text := by
  intro l1
  induction l1 with
  | nil =>
    intro l2 h
    cases l2 with
    | nil => rfl
    | cons b bs => simp at h
  | cons a as ih =>
    intro l2 h
    cases l2 with
    | nil => simp at h
    | cons b bs =>
      simp only [List.map_cons, List.cons.injEq] at h
      have ht : a.tag = b.tag := congrArg Prod.fst h.1
      have hx : a.text = b.text := congrArg Prod.snd h.1
      by_cases hat : (a.tag == t) = true
      · rw [List.filter_cons, List.filter_cons, if_pos hat,
          if_pos (show (b.tag == t) = true by rw [← ht]; exact hat)]
        simp only [List.map_cons]
        rw [hx, ih bs h.2]
      · rw [List.filter_cons, List.filter_cons, if_neg hat,
          if_neg (show ¬(b.tag == t) = true by rw [← ht]; exact hat)]
        exact ih bs h.2

theorem nameTexts_congr {ch1 ch2 : List XML} (t : String) (x : Option String)
    (h : ch1.map obsTT = ch2.map obsTT) :
    nameTexts (XML.elem t x ch1) = nameTexts (XML.elem t x ch2) := by
  unfold nameTexts childElems
  exact filter_map_text_congr "name" ch1 ch2 h

/-- The configItem/name text of a node, written through the flattened
name-text lists of its configItem children. -/
theorem obsName_eq (t : String) (x : Option String) (ch : List XML) :
    obsName (XML.elem t x ch) =
      ((ch.filter (fun c => c.tag == "configItem")).flatMap nameTexts).head? := by
  unfold obsName ciName? childElems nameTexts
  rw [show (XML.elem t x ch).children = ch from rfl]
  rw [← List.head?_map, List.map_flatMap]
  rfl

theorem flatMap_nameTexts_congr :
    ∀ (l1 l2 : List XML), l1.map obsTT = l2.map obsTT →
      l1.map nameTexts = l2.map nameTexts →
      (l1.filter (fun c => c.tag == "configItem")).flatMap nameTexts =
        (l2.filter (fun c => c.tag == "configItem")).flatMap nameTexts := by
  intro l1
  induction l1 with
  | nil =>
    intro l2 h _
    cases l2 with
    | nil => rfl
    | cons b bs => simp at h
  | cons a as ih =>
    intro l2 h hn
    cases l2 with
    | nil => simp at h
    | cons b bs =>
      simp only [List.map_cons, List.cons.injEq] at h hn
      have ht : a.tag = b.tag := congrArg Prod.fst h.1
      by_cases hat : (a.tag == "configItem") = true
      · rw [List.filter_cons, List.filter_cons, if_pos hat,
          if_pos (show (b.tag == "configItem") = true by rw [← ht]; exact hat)]
        rw [List.flatMap_cons, List.flatMap_cons, hn.1, ih bs h.2 hn.2]
      · rw [List.filter_cons, List.filter_cons, if_neg hat,
          if_neg (show ¬(b.tag == "configItem") = true by rw [← ht]; exact hat)]
        exact ih bs h.2 hn.2

theorem obsName_congr {ch1 ch2 : List XML} (t : String) (x : Option String)
    (h1 : ch1.map obsTT = ch2.map obsTT)
    (h2 : ch1.map nameTexts = ch2.map nameTexts) :
    obsName (XML.elem t x ch1) = obsName (XML.elem t x ch2) := by
  rw [obsName_eq, obsName_eq, flatMap_nameTexts_congr ch1 ch2 h1 h2]

/-! ### The per-layout patch: preservation and reconciliation facts -/

theorem patchChildren_filter (act : PatchAction) (t : String)
    (ht : (t == "variantList") = false) :
    ∀ ch : List XML, (patchChildren act ch).filter (fun c => c.tag == t) =
      ch.filter (fun c => c.tag == t) := by
  have ht2 : ("variantList" == t) = false := by
    simp only [beq_eq_false_iff_ne] at ht ⊢
    exact fun h => ht h.symm
  intro ch
  induction ch with
  | nil =>
    cases act with
    | install =>
      rw [show patchChildren PatchAction.install ([] : List XML) =
          [XML.elem "variantList" none (reconcileAll .install [])] from rfl]
      rw [List.filter_cons, if_neg (by simp only [XML.tag]; simp [ht2])]
    | remove => rfl
  | cons c cs ih =>
    by_cases hv : (c.tag == "variantList") = true
    · have hcv : c.tag = "variantList" := by simpa using hv
      have hct : (c.tag == t) = false := by rw [hcv]; exact ht2
      rw [patchChildren, if_pos hv]
      rw [List.filter_cons, List.filter_cons]
      have e1 : (XML.elem c.tag c.text (reconcileAll act c.children)).tag = c.tag := rfl
      rw [if_neg (by rw [e1, hcv]; simp [ht2]), if_neg (by rw [hcv]; simp [ht2])]
    · rw [patchChildren, if_neg hv]
      rw [List.filter_cons, List.filter_cons]
      by_cases hct : (c.tag == t) = true
      · rw [if_pos hct, if_pos hct, ih]
      · rw [if_neg hct, if_neg hct]
        exact ih

theorem patchLayout_childElems (act : PatchAction) (t : String)
    (ht : (t == "variantList") = false) (lay : XML) :
    childElems t (patchLayout act lay) = childElems t lay := by
  unfold childElems patchLayout
  rw [show (XML.elem lay.tag lay.text (patchChildren act lay.children)).children
      = patchChildren act lay.children from rfl]
  exact patchChildren_filter act t ht lay.children

theorem patchLayout_obsTT (act : PatchAction) (lay : XML) :
    obsTT (patchLayout act lay) = obsTT lay := rfl

theorem patchLayout_nameTexts (act : PatchAction) (lay : XML) :
    nameTexts (patchLayout act lay) = nameTexts lay := by
  unfold nameTexts
  rw [patchLayout_childElems act "name" (by decide) lay]

theorem patchLayout_obsName (act : PatchAction) (lay : XML) :
    obsName (patchLayout act lay) = obsName lay := by
  unfold obsName ciName?
  rw [patchLayout_childElems act "configItem" (by decide) lay]

theorem patchLayout_isBase (act : PatchAction) (lay : XML) :
    isBaseLayout (patchLayout act lay) = isBaseLayout lay :=
  isBaseLayout_congr (patchLayout_obsTT act lay) (patchLayout_obsName act lay)

/-! ### Reconciliation facts -/

/-- The two concrete elements install appends. -/
def vCarbon : XML := newVariant "carbon" "English (Carbon)"

def vAngle : XML := newVariant "carbon-angle" "English (Carbon, Angle Mod)"

theorem isVariantNamed_newVariant (n d : String) :
    isVariantNamed n (newVariant n d) = true := by
  unfold isVariantNamed newVariant hasNameText ciName? childElems
  simp [XML.tag, XML.text, XML.children]

theorem vC_self : isVariantNamed "carbon" vCarbon = true := by decide

theorem vA_self : isVariantNamed "carbon-angle" vAngle = true := by decide

theorem vC_not_angle : isVariantNamed "carbon-angle" vCarbon = false := by decide

theorem vA_not_carbon : isVariantNamed "carbon" vAngle = false := by decide

theorem vC_managed : isManagedVariant vCarbon = true := by decide

theorem vA_managed : isManagedVariant vAngle = true := by decide

theorem reconcileAll_remove_eq (cs : List XML) :
    reconcileAll .remove cs =
      (cs.filter fun v => !isVariantNamed "carbon" v).filter
        fun v => !isVariantNamed "carbon-angle" v := rfl

theorem reconcileAll_install_eq (cs : List XML) :
    reconcileAll .install cs =
      ((cs.filter fun v => !isVariantNamed "carbon" v).filter
        fun v => !isVariantNamed "carbon-angle" v) ++ [vCarbon, vAngle] := by
  show reconcile .install ((cs.filter fun v => !isVariantNamed "carbon" v) ++ [vCarbon])
      ("carbon-angle", "English (Carbon, Angle Mod)") = _
  unfold reconcile
  rw [List.filter_append]
  rw [show ([vCarbon].filter fun v => !isVariantNamed "carbon-angle" v) = [vCarbon] by
    rw [List.filter_cons, if_pos (by simp [vC_not_angle]), List.filter_nil]]
  rw [List.append_assoc]
  rfl

theorem countP_filter_not {α} (p : α → Bool) (l : List α) :
    (l.filter fun a => !p a).countP p = 0 := by
  rw [List.countP_eq_zero]
  intro a ha
  have h1 := List.of_mem_filter ha
  simp only [Bool.not_eq_true'] at h1
  simp [h1]

theorem reconcileAll_remove_managed (cs : List XML) :
    (reconcileAll .remove cs).countP isManagedVariant = 0 := by
  rw [reconcileAll_remove_eq, List.countP_eq_zero]
  intro a ha
  have h1 := List.of_mem_filter ha
  have h2 := List.of_mem_filter (List.mem_of_mem_filter ha)
  simp only [Bool.not_eq_true'] at h1 h2
  unfold isManagedVariant
  simp [h1, h2]

theorem reconcile_remove_count (cs : List XML) (nd : String × String) :
    (reconcile .remove cs nd).countP (isVariantNamed nd.1) = 0 := by
  unfold reconcile
  exact countP_filter_not _ cs

theorem reconcile_install_count (cs : List XML) (nd : String × String) :
    (reconcile .install cs nd).countP (isVariantNamed nd.1) = 1 := by
  unfold reconcile
  rw [List.countP_append, countP_filter_not]
  simp [List.countP_cons, isVariantNamed_newVariant]

theorem reconcile_install_getLast (cs : List XML) (nd : String × String) :
    (reconcile .install cs nd).getLast? = some (newVariant nd.1 nd.2) := by
  unfold reconcile
  simp

theorem reconcileAll_install_idem (cs : List XML) :
    reconcileAll .install (reconcileAll .install cs) = reconcileAll .install cs := by
  rw [reconcileAll_install_eq, reconcileAll_install_eq cs]
  rw [List.filter_append, List.filter_append]
  have h1 : (List.filter (fun v => !isVariantNamed "carbon" v) [vCarbon, vAngle])
      = [vAngle] := by
    rw [List.filter_cons, if_neg (by simp [vC_self]),
      List.filter_cons, if_pos (by simp [vA_not_carbon]), List.filter_nil]
  have h2 : (List.filter (fun v => !isVariantNamed "carbon-angle" v) [vAngle]) = [] := by
    rw [List.filter_cons, if_neg (by simp [vA_self]), List.filter_nil]
  rw [h1, h2, List.append_nil]
  congr 1
  simp only [List.filter_filter]
  apply List.filter_congr
  intro a _
  cases isVariantNamed "carbon" a <;> cases isVariantNamed "carbon-angle" a <;> rfl

theorem reconcileAll_nonmanaged (act : PatchAction) (cs : List XML) :
    (reconcileAll act cs).filter (fun v => !isManagedVariant v) =
      cs.filter (fun v => !isManagedVariant v) := by
  cases act with
  | install =>
    rw [reconcileAll_install_eq, List.filter_append]
    have h2 : (List.filter (fun v => !isManagedVariant v) [vCarbon, vAngle]) = [] := by
      rw [List.filter_cons, if_neg (by simp [vC_managed]),
        List.filter_cons, if_neg (by simp [vA_managed]), List.filter_nil]
    rw [h2, List.append_nil]
    simp only [List.filter_filter]
    apply List.filter_congr
    intro a _
    unfold isManagedVariant
    cases isVariantNamed "carbon" a <;> cases isVariantNamed "carbon-angle" a <;> rfl
  | remove =>
    rw [reconcileAll_remove_eq]
    simp only [List.filter_filter]
    apply List.filter_congr
    intro a _
    unfold isManagedVariant
    cases isVariantNamed "carbon" a <;> cases isVariantNamed "carbon-angle" a <;> rfl

/-! ### Search and replacement machinery -/

theorem patchLayout_elem (act : PatchAction) (t : String) (x : Option String)
    (ch : List XML) :
    patchLayout act (XML.elem t x ch) = XML.elem t x (patchChildren act ch) := rfl

theorem replaceFirst_isSome (p : XML → Bool) (f : XML → XML) (cs : List XML) :
    (replaceFirstL p f cs).isSome = (findFirstL p cs).isSome := by
  induction cs using replaceFirstL.induct p f with
  | case1 => simp [replaceFirstL, findFirstL]
  | case2 t x ch cs hp =>
      rw [replaceFirstL, findFirstL]
      simp [hp]
  | case3 t x ch cs hp ch2 hsome ih =>
      rw [replaceFirstL, findFirstL]
      have h1 : (findFirstL p ch).isSome = true := by rw [← ih, hsome]; rfl
      cases hfc : findFirstL p ch with
      | none => rw [hfc] at h1; simp at h1
      | some r => simp [hp, hsome, hfc]
  | case4 t x ch cs hp hnone ih1 ih2 =>
      rw [replaceFirstL, findFirstL]
      have h1 : (findFirstL p ch).isSome = false := by rw [← ih1, hnone]; rfl
      cases hfc : findFirstL p ch with
      | none => simp [hp, hnone, hfc, ih2]
      | some r => rw [hfc] at h1; simp at h1

theorem replaceFirst_congr (p : XML → Bool) (f g : XML → XML)
    (hfg : ∀ y, p y = true → f y = g y) (cs : List XML) :
    replaceFirstL p f cs = replaceFirstL p g cs := by
  induction cs using replaceFirstL.induct p f with
  | case1 => simp [replaceFirstL]
  | case2 t x ch cs hp =>
      rw [replaceFirstL, replaceFirstL, if_pos hp, if_pos hp, hfg _ hp]
  | case3 t x ch cs hp ch2 hsome ih =>
      rw [replaceFirstL, replaceFirstL, if_neg hp, if_neg hp, ← ih, hsome]
  | case4 t x ch cs hp hnone ih1 ih2 =>
      rw [replaceFirstL, replaceFirstL, if_neg hp, if_neg hp, ← ih1, hnone, ih2]

/-- When the first matching node is left unchanged by f, the whole
replacement returns the list unchanged. -/
theorem replaceFirst_fixpoint (p : XML → Bool) (f : XML → XML) :
    ∀ (cs : List XML) (y : XML), findFirstL p cs = some y → f y = y →
      replaceFirstL p f cs = some cs := by
  intro cs
  induction cs using replaceFirstL.induct p f with
  | case1 =>
      intro y h hf
      rw [findFirstL] at h
      cases h
  | case2 t x ch cs hp =>
      intro y h hf
      rw [findFirstL, if_pos hp] at h
      cases h
      rw [replaceFirstL, if_pos hp, hf]
  | case3 t x ch cs hp ch2 hsome ih =>
      intro y h hf
      rw [findFirstL, if_neg hp] at h
      have hS : (findFirstL p ch).isSome = true := by
        rw [← replaceFirst_isSome p f, hsome]; rfl
      cases hfc : findFirstL p ch with
      | none => rw [hfc] at hS; cases hS
      | some r =>
          rw [hfc] at h
          have hy : r = y := by simpa using h
          have h2 := ih y (by rw [hfc, hy]) hf
          rw [replaceFirstL, if_neg hp, h2]
  | case4 t x ch cs hp hnone ih1 ih2 =>
      intro y h hf
      rw [findFirstL, if_neg hp] at h
      have hS : (findFirstL p ch).isSome = false := by
        rw [← replaceFirst_isSome p f, hnone]; rfl
      cases hfc : findFirstL p ch with
      | some r => rw [hfc] at hS; cases hS
      | none =>
          rw [hfc] at h
          have h3 : findFirstL p cs = some y := by simpa using h
          have h4 := ih2 y h3 hf
          rw [replaceFirstL, if_neg hp, hnone, h4]
          rfl

/-- Master lemma: replacing the first base layout by its patch (a) keeps
every shallow observation of the list (tags, texts, name-child texts,
configItem/name texts), (b) makes a subsequent search find exactly the
patched node, and (c) turns a subsequent replacement into a single
replacement by the composite. -/
theorem replaceFirst_master (act : PatchAction) :
    ∀ (cs cs2 : List XML),
      replaceFirstL isBaseLayout (patchLayout act) cs = some cs2 →
      (cs2.map obsTT = cs.map obsTT ∧
       cs2.map nameTexts = cs.map nameTexts ∧
       cs2.map obsName = cs.map obsName) ∧
      findFirstL isBaseLayout cs2 =
        (findFirstL isBaseLayout cs).map (patchLayout act) ∧
      ∀ g : XML → XML, replaceFirstL isBaseLayout g cs2 =
        replaceFirstL isBaseLayout (fun y => g (patchLayout act y)) cs := by
  intro cs
  induction cs using replaceFirstL.induct isBaseLayout (patchLayout act) with
  | case1 =>
      intro cs2 h
      rw [replaceFirstL] at h
      cases h
  | case2 t x ch cs hp =>
      intro cs2 h
      rw [replaceFirstL, if_pos hp] at h
      cases h
      have hq : isBaseLayout (XML.elem t x (patchChildren act ch)) = true := by
        rw [← patchLayout_elem act t x ch, patchLayout_isBase]
        exact hp
      refine ⟨⟨?_, ?_, ?_⟩, ?_, ?_⟩
      · simp [patchLayout_obsTT]
      · simp [patchLayout_nameTexts]
      · simp [patchLayout_obsName]
      · rw [patchLayout_elem, findFirstL, findFirstL, if_pos hq, if_pos hp]
        simp [patchLayout_elem]
      · intro g
        rw [patchLayout_elem, replaceFirstL, replaceFirstL, if_pos hq, if_pos hp]
        simp [patchLayout_elem]
  | case3 t x ch cs hp ch2 hsome ih =>
      intro cs2 h
      rw [replaceFirstL, if_neg hp, hsome] at h
      cases h
      obtain ⟨⟨m1, m2, m3⟩, hfind, hrep⟩ := ih ch2 hsome
      have hTT : obsTT (XML.elem t x ch2) = obsTT (XML.elem t x ch) := rfl
      have hNT : nameTexts (XML.elem t x ch2) = nameTexts (XML.elem t x ch) :=
        nameTexts_congr t x m1
      have hON : obsName (XML.elem t x ch2) = obsName (XML.elem t x ch) :=
        obsName_congr t x m1 m2
      have hpc : isBaseLayout (XML.elem t x ch2) = isBaseLayout (XML.elem t x ch) :=
        isBaseLayout_congr hTT hON
      have hS : (findFirstL isBaseLayout ch).isSome = true := by
        rw [← replaceFirst_isSome isBaseLayout (patchLayout act), hsome]; rfl
      refine ⟨⟨?_, ?_, ?_⟩, ?_, ?_⟩
      · simp [hTT, m1]
      · simp [hNT, m2]
      · simp [hON, m3]
      · rw [findFirstL, findFirstL, if_neg (by rw [hpc]; exact hp), if_neg hp, hfind]
        cases hfc : findFirstL isBaseLayout ch with
        | none => rw [hfc] at hS; cases hS
        | some r => simp [hfc]
      · intro g
        rw [replaceFirstL, replaceFirstL, if_neg (by rw [hpc]; exact hp), if_neg hp,
          hrep g]
        have hS2 : (replaceFirstL isBaseLayout
            (fun y => g (patchLayout act y)) ch).isSome = true := by
          rw [replaceFirst_isSome]
          exact hS
        cases hgc : replaceFirstL isBaseLayout (fun y => g (patchLayout act y)) ch with
        | none => rw [hgc] at hS2; cases hS2
        | some ch3 => simp [hgc]
  | case4 t x ch cs hp hnone ih1 ih2 =>
      intro cs2 h
      rw [replaceFirstL, if_neg hp, hnone] at h
      have hFnone : findFirstL isBaseLayout ch = none := by
        have hS := replaceFirst_isSome isBaseLayout (patchLayout act) ch
        rw [hnone] at hS
        cases hfc : findFirstL isBaseLayout ch with
        | none => rfl
        | some r => rw [hfc] at hS; cases hS
      cases hcs : replaceFirstL isBaseLayout (patchLayout act) cs with
      | none => rw [hcs] at h; cases h
      | some cs3 =>
          rw [hcs] at h
          have hcs2 : cs2 = XML.elem t x ch :: cs3 := by
            have h5 : some (XML.elem t x ch :: cs3) = some cs2 := by simpa using h
            exact (Option.some.inj h5).symm
          subst hcs2
          obtain ⟨⟨m1, m2, m3⟩, hfind, hrep⟩ := ih2 cs3 hcs
          refine ⟨⟨?_, ?_, ?_⟩, ?_, ?_⟩
          · simp [m1]
          · simp [m2]
          · simp [m3]
          · rw [findFirstL, findFirstL, if_neg hp, if_neg hp, hFnone, hfind]
          · intro g
            have hGnone : ∀ g2 : XML → XML,
                replaceFirstL isBaseLayout g2 ch = none := by
              intro g2
              have hS := replaceFirst_isSome isBaseLayout g2 ch
              rw [hFnone] at hS
              cases hgc : replaceFirstL isBaseLayout g2 ch with
              | none => rfl
              | some r => rw [hgc] at hS; cases hS
            rw [replaceFirstL, replaceFirstL, if_neg hp, if_neg hp,
              hGnone g, hGnone (fun y => g (patchLayout act y)), hrep g]

/-! ### Patch idempotence and the variant list after a patch -/

theorem patchChildren_install_idem :
    ∀ ch : List XML,
      patchChildren .install (patchChildren .install ch) = patchChildren .install ch := by
  intro ch
  induction ch with
  | nil =>
      rw [show patchChildren PatchAction.install ([] : List XML) =
          [XML.elem "variantList" none (reconcileAll .install [])] from rfl]
      rw [patchChildren, if_pos (by rfl)]
      rw [show (XML.elem "variantList" none (reconcileAll .install [])).children =
          reconcileAll .install [] from rfl]
      rw [reconcileAll_install_idem]
      rfl
  | cons c cs ih =>
      by_cases hv : (c.tag == "variantList") = true
      · rw [patchChildren, if_pos hv]
        rw [patchChildren, if_pos (show ((XML.elem c.tag c.text
            (reconcileAll .install c.children)).tag == "variantList") = true from hv)]
        rw [show (XML.elem c.tag c.text (reconcileAll .install c.children)).children =
            reconcileAll .install c.children from rfl]
        rw [reconcileAll_install_idem]
        rfl
      · rw [patchChildren, if_neg hv, patchChildren, if_neg hv, ih]

theorem patchLayout_install_idem (lay : XML) :
    patchLayout .install (patchLayout .install lay) = patchLayout .install lay := by
  cases lay with
  | elem t x ch =>
      show XML.elem t x (patchChildren .install (patchChildren .install ch)) =
        XML.elem t x (patchChildren .install ch)
      rw [patchChildren_install_idem]

theorem patchChildren_remove_id :
    ∀ ch : List XML, ch.find? (fun c => c.tag == "variantList") = none →
      patchChildren .remove ch = ch := by
  intro ch
  induction ch with
  | nil => intro _; rfl
  | cons c cs ih =>
      intro h
      by_cases hv : (c.tag == "variantList") = true
      · rw [List.find?] at h
        rw [hv] at h
        cases h
      · have hv2 : (c.tag == "variantList") = false := by simpa using hv
        rw [List.find?] at h
        rw [hv2] at h
        rw [patchChildren, if_neg hv, ih h]

theorem vlChildren_patch (act : PatchAction) (lay : XML) :
    vlChildren (patchLayout act lay) = reconcileAll act (vlChildren lay) := by
  cases lay with
  | elem t x ch =>
      rw [patchLayout_elem]
      unfold vlChildren firstVariantList
      rw [show (XML.elem t x (patchChildren act ch)).children =
          patchChildren act ch from rfl]
      rw [show (XML.elem t x ch).children = ch from rfl]
      induction ch with
      | nil =>
          cases act with
          | install => rfl
          | remove => rfl
      | cons c cs ihc =>
          by_cases hv : (c.tag == "variantList") = true
          · rw [patchChildren, if_pos hv]
            rw [List.find?, List.find?]
            rw [show ((XML.elem c.tag c.text (reconcileAll act c.children)).tag
                == "variantList") = (c.tag == "variantList") from rfl]
            rw [hv]
            rfl
          · have hv2 : (c.tag == "variantList") = false := by simpa using hv
            rw [patchChildren, if_neg hv]
            rw [List.find?, List.find?]
            rw [hv2]
            exact ihc

/-! ### Document-level consequences -/

theorem modifyDoc_of_none (act : PatchAction) (d : XML) (h : locateBase d = none) :
    modifyDoc act d = d := by
  unfold modifyDoc
  have hS := replaceFirst_isSome isBaseLayout (patchLayout act) d.children
  unfold locateBase at h
  rw [h] at hS
  cases hr : replaceFirstL isBaseLayout (patchLayout act) d.children with
  | none => rfl
  | some ch2 => rw [hr] at hS; cases hS

theorem locateBase_modifyDoc (act : PatchAction) (d : XML) :
    locateBase (modifyDoc act d) = (locateBase d).map (patchLayout act) := by
  cases hr : replaceFirstL isBaseLayout (patchLayout act) d.children with
  | none =>
      have hd : modifyDoc act d = d := by unfold modifyDoc; rw [hr]
      have hS := replaceFirst_isSome isBaseLayout (patchLayout act) d.children
      rw [hr] at hS
      have hnone : locateBase d = none := by
        unfold locateBase
        cases hfc : findFirstL isBaseLayout d.children with
        | none => rfl
        | some r => rw [hfc] at hS; cases hS
      rw [hd, hnone]
      rfl
  | some ch2 =>
      have hd : modifyDoc act d = XML.elem d.tag d.text ch2 := by
        unfold modifyDoc; rw [hr]
      obtain ⟨_, hfind, _⟩ := replaceFirst_master act d.children ch2 hr
      rw [hd]
      unfold locateBase
      exact hfind

theorem modifyDoc_install_idem (d : XML) :
    modifyDoc .install (modifyDoc .install d) = modifyDoc .install d := by
  cases hr : replaceFirstL isBaseLayout (patchLayout .install) d.children with
  | none =>
      have hd : modifyDoc .install d = d := by unfold modifyDoc; rw [hr]
      rw [hd, hd]
  | some ch2 =>
      have hd : modifyDoc .install d = XML.elem d.tag d.text ch2 := by
        unfold modifyDoc; rw [hr]
      obtain ⟨_, _, hrep⟩ := replaceFirst_master .install d.children ch2 hr
      have h2 : replaceFirstL isBaseLayout (patchLayout .install) ch2 = some ch2 := by
        rw [hrep (patchLayout .install)]
        rw [replaceFirst_congr isBaseLayout
          (fun y => patchLayout .install (patchLayout .install y)) (patchLayout .install)
          (fun y _ => patchLayout_install_idem y) d.children]
        exact hr
      rw [hd]
      unfold modifyDoc
      rw [show (XML.elem d.tag d.text ch2).children = ch2 from rfl, h2]
      rfl

theorem eraseAtFirstBase_modifyDoc (act : PatchAction) (d : XML) :
    eraseAtFirstBase (modifyDoc act d) = eraseAtFirstBase d := by
  cases hr : replaceFirstL isBaseLayout (patchLayout act) d.children with
  | none =>
      have hd : modifyDoc act d = d := by unfold modifyDoc; rw [hr]
      rw [hd]
  | some ch2 =>
      have hd : modifyDoc act d = XML.elem d.tag d.text ch2 := by
        unfold modifyDoc; rw [hr]
      obtain ⟨_, _, hrep⟩ := replaceFirst_master act d.children ch2 hr
      have hg : replaceFirstL isBaseLayout (fun _ => XML.elem "erased" none []) ch2 =
          replaceFirstL isBaseLayout (fun _ => XML.elem "erased" none []) d.children := by
        rw [hrep (fun _ => XML.elem "erased" none [])]
      have hS : (replaceFirstL isBaseLayout (fun _ => XML.elem "erased" none [])
          d.children).isSome = true := by
        rw [replaceFirst_isSome, ← replaceFirst_isSome isBaseLayout (patchLayout act), hr]
        rfl
      cases hge : replaceFirstL isBaseLayout (fun _ => XML.elem "erased" none [])
          d.children with
      | none => rw [hge] at hS; cases hS
      | some ch3 =>
          rw [hd]
          unfold eraseAtFirstBase
          rw [show (XML.elem d.tag d.text ch2).children = ch2 from rfl]
          rw [hg, hge]
          rfl

theorem managedVariantCount_remove (d : XML) :
    managedVariantCount (modifyDoc .remove d) = 0 := by
  unfold managedVariantCount baseVariantChildren
  rw [locateBase_modifyDoc]
  cases hb : locateBase d with
  | none => rfl
  | some lay =>
      rw [show (some lay).map (patchLayout .remove) =
          some (patchLayout .remove lay) from rfl]
      show List.countP isManagedVariant (vlChildren (patchLayout PatchAction.remove lay)) = 0
      rw [vlChildren_patch]
      exact reconcileAll_remove_managed _

theorem modifyDoc_remove_noVL (d : XML) (lay : XML)
    (h1 : locateBase d = some lay) (h2 : firstVariantList lay = none) :
    modifyDoc .remove d = d := by
  have hfix : patchLayout .remove lay = lay := by
    cases lay with
    | elem t x ch =>
        rw [patchLayout_elem]
        unfold firstVariantList at h2
        rw [show (XML.elem t x ch).children = ch from rfl] at h2
        rw [patchChildren_remove_id ch h2]
  unfold locateBase at h1
  have h3 := replaceFirst_fixpoint isBaseLayout (patchLayout .remove) d.children lay h1 hfix
  unfold modifyDoc
  rw [h3]
  show XML.elem d.tag d.text d.children = d
  exact XML.eta d

/-! ### Orchestrator model: file states, events, runs -/

/-- A rules file as the run sees it: absent, present but not parseable
as XML, or parsed into a document. -/
inductive Doc where
  | missing
  | malformed
  | parsed (x : XML)

/-- File identities: the flat symbols file, or the i-th rules file. -/
inductive Fid where
  | flat
  | rules (i : Nat)
deriving DecidableEq

/-- Observable events of a run, in order: backup creation (backup_file
on an existing file), a write to a file, the missing-rules-file
warning, the base-layout-not-found report with skip, and the XML
parse-failure report. -/
inductive Ev where
  | backup (f : Fid)
  | write (f : Fid)
  | warnMissing (i : Nat)
  | skipNoBase (i : Nat)
  | parseError (i : Nat)
deriving DecidableEq

def Doc.isMalformed : Doc → Bool
  | .malformed => true
  | _ => false

/-- Every rules document parses. -/
def noMalformed (ds : List Doc) : Bool :=
  ds.all (fun d => !d.isMalformed)

/-- modify_xkb_rules(action) (source lines 41-104) over the indexed
rules files: a missing file is warned about and skipped without backup;
an existing file is backed up (line 48) before parsing; a parse failure
prints the cause and exits 1, leaving every later file untouched; a
document without the base layout is reported and not written (continue
at line 64); otherwise the document is patched, reindented and written.
Returns the new file states, the event trace, and whether the run
aborted via sys.exit(1). -/
def processRules (act : PatchAction) : Nat → List Doc → List Doc × List Ev × Bool
  | _, [] => ([], [], false)
  | i, d :: ds =>
    match d with
    | .missing =>
        let r := processRules act (i + 1) ds
        (.missing :: r.1, .warnMissing i :: r.2.1, r.2.2)
    | .malformed =>
        (.malformed :: ds, [.backup (.rules i), .parseError i], true)
    | .parsed x =>
        if hasBaseLayout x then
          let r := processRules act (i + 1) ds
          (.parsed (modifyDoc act x) :: r.1,
            .backup (.rules i) :: .write (.rules i) :: r.2.1, r.2.2)
        else
          let r := processRules act (i + 1) ds
          (.parsed x :: r.1, .backup (.rules i) :: .skipNoBase i :: r.2.1, r.2.2)

/-- The file-system state the orchestrator acts on: flat symbols file
content (none when the file does not exist), rules files, and the
bundled source blob (none when absent). -/
structure Sys where
  flat : Option String
  docs : List Doc
  srcBlob : Option String

/-- install() (source lines 107-131): a missing source blob is fatal
before any mutation; otherwise the flat target is backed up when it
exists (backup_file does nothing on a missing file), two newlines and
the blob are appended (the file is created when missing), and
modify_xkb_rules runs with action install. -/
def installRun (s : Sys) : Sys × List Ev × Nat :=
  match s.srcBlob with
  | none => (s, [], 1)
  | some b =>
    let fevs := match s.flat with
      | some _ => [Ev.backup .flat, Ev.write .flat]
      | none => [Ev.write .flat]
    let r := processRules .install 0 s.docs
    ({ s with flat := some (flatInstall (s.flat.getD "") b), docs := r.1 },
      fevs ++ r.2.1, if r.2.2 then 1 else 0)

/-- remove() (source lines 134-168): when the flat target exists it is
backed up, scanned line by line and rewritten with the kept lines; when
absent the whole cleaning step is silently skipped; modify_xkb_rules
then runs with action remove in either case. -/
def removeRun (s : Sys) : Sys × List Ev × Nat :=
  let fstep : Option String × List Ev :=
    match s.flat with
    | none => (none, [])
    | some content =>
        (some (String.join (removeScan false (readLines content))),
          [Ev.backup .flat, Ev.write .flat])
  let r := processRules .remove 0 s.docs
  ({ s with flat := fstep.1, docs := r.1 }, fstep.2 ++ r.2.1, if r.2.2 then 1 else 0)

/-- The backup and write events concerning one file, in order. -/
def bwFor (f : Fid) (evs : List Ev) : List Ev :=
  evs.filter (fun e => e == Ev.backup f || e == Ev.write f)

/-! ### Orchestrator lemmas -/

theorem processRules_no_abort (act : PatchAction) :
    ∀ (ds : List Doc) (i : Nat), noMalformed ds = true →
      (processRules act i ds).2.2 = false := by
  intro ds
  induction ds with
  | nil => intro i _; rfl
  | cons d ds ih =>
      intro i h
      have h2 : noMalformed ds = true := by
        simp only [noMalformed, List.all_cons, Bool.and_eq_true] at h
        exact h.2
      cases d with
      | missing => exact ih (i + 1) h2
      | malformed =>
          exfalso
          simp [noMalformed, List.all_cons, Doc.isMalformed] at h
      | parsed x =>
          by_cases hb : hasBaseLayout x = true
          · show (if hasBaseLayout x then _ else _ : List Doc × List Ev × Bool).2.2 = false
            rw [if_pos hb]
            exact ih (i + 1) h2
          · show (if hasBaseLayout x then _ else _ : List Doc × List Ev × Bool).2.2 = false
            rw [if_neg hb]
            exact ih (i + 1) h2

theorem processRules_append (act : PatchAction) :
    ∀ (as bs : List Doc) (i : Nat), noMalformed as = true →
      processRules act i (as ++ bs) =
        ((processRules act i as).1 ++ (processRules act (i + as.length) bs).1,
          (processRules act i as).2.1 ++ (processRules act (i + as.length) bs).2.1,
          (processRules act (i + as.length) bs).2.2) := by
  intro as
  induction as with
  | nil =>
      intro bs i _
      simp [processRules]
  | cons d ds ih =>
      intro bs i h
      have h2 : noMalformed ds = true := by
        simp only [noMalformed, List.all_cons, Bool.and_eq_true] at h
        exact h.2
      have hlen : i + (d :: ds).length = (i + 1) + ds.length := by
        simp [List.length_cons]
        omega
      cases d with
      | missing =>
          simp only [List.cons_append, processRules, List.append_eq]
          rw [ih bs (i + 1) h2, hlen]
      | malformed =>
          exfalso
          simp [noMalformed, List.all_cons, Doc.isMalformed] at h
      | parsed x =>
          simp only [List.cons_append, processRules, List.append_eq]
          by_cases hb : hasBaseLayout x = true
          · rw [if_pos hb, if_pos hb, ih bs (i + 1) h2, hlen]
            simp
          · rw [if_neg hb, if_neg hb, ih bs (i + 1) h2, hlen]
            simp

theorem processRules_no_flat (act : PatchAction) :
    ∀ (ds : List Doc) (i : Nat) (e : Ev),
      e ∈ (processRules act i ds).2.1 →
        e ≠ Ev.backup .flat ∧ e ≠ Ev.write .flat := by
  intro ds
  induction ds with
  | nil => intro i e he; simp [processRules] at he
  | cons d ds ih =>
      intro i e he
      cases d with
      | missing =>
          rcases List.mem_cons.mp he with rfl | h2
          · exact ⟨by simp, by simp⟩
          · exact ih (i + 1) e h2
      | malformed =>
          rcases List.mem_cons.mp he with rfl | h2
          · exact ⟨by simp, by simp⟩
          · rcases List.mem_cons.mp h2 with rfl | h3
            · exact ⟨by simp, by simp⟩
            · simp at h3
      | parsed x =>
          by_cases hb : hasBaseLayout x = true
          · rw [show (processRules act i (Doc.parsed x :: ds)).2.1 =
                (if hasBaseLayout x then
                  (.backup (.rules i) :: .write (.rules i) ::
                    (processRules act (i + 1) ds).2.1)
                else
                  (.backup (.rules i) :: .skipNoBase i ::
                    (processRules act (i + 1) ds).2.1)) from by
                by_cases hbb : hasBaseLayout x = true <;> simp [processRules, hbb]] at he
            rw [if_pos hb] at he
            rcases List.mem_cons.mp he with rfl | h2
            · exact ⟨by simp, by simp⟩
            · rcases List.mem_cons.mp h2 with rfl | h3
              · exact ⟨by simp, by simp⟩
              · exact ih (i + 1) e h3
          · rw [show (processRules act i (Doc.parsed x :: ds)).2.1 =
                (if hasBaseLayout x then
                  (.backup (.rules i) :: .write (.rules i) ::
                    (processRules act (i + 1) ds).2.1)
                else
                  (.backup (.rules i) :: .skipNoBase i ::
                    (processRules act (i + 1) ds).2.1)) from by
                by_cases hbb : hasBaseLayout x = true <;> simp [processRules, hbb]] at he
            rw [if_neg hb] at he
            rcases List.mem_cons.mp he with rfl | h2
            · exact ⟨by simp, by simp⟩
            · rcases List.mem_cons.mp h2 with rfl | h3
              · exact ⟨by simp, by simp⟩
              · exact ih (i + 1) e h3

theorem bwFor_nil (f : Fid) : bwFor f [] = [] := rfl

theorem bwFor_cons_skip (f : Fid) (e : Ev) (evs : List Ev)
    (h : (e == Ev.backup f || e == Ev.write f) = false) :
    bwFor f (e :: evs) = bwFor f evs := by
  unfold bwFor
  rw [List.filter_cons, if_neg (by simp [h])]

theorem bwFor_cons_keep (f : Fid) (e : Ev) (evs : List Ev)
    (h : (e == Ev.backup f || e == Ev.write f) = true) :
    bwFor f (e :: evs) = e :: bwFor f evs := by
  unfold bwFor
  rw [List.filter_cons, if_pos h]

/-- Per rules file, the backup and write events of a modify_xkb_rules
pass form one of three patterns: nothing (file missing or index not
processed), a backup alone (parse failure or base-layout skip), or a
backup followed by the write. -/
theorem processRules_bw (act : PatchAction) :
    ∀ (ds : List Doc) (i j : Nat),
      (j < i → bwFor (.rules j) (processRules act i ds).2.1 = []) ∧
      (bwFor (.rules j) (processRules act i ds).2.1 = [] ∨
       bwFor (.rules j) (processRules act i ds).2.1 = [Ev.backup (.rules j)] ∨
       bwFor (.rules j) (processRules act i ds).2.1 =
         [Ev.backup (.rules j), Ev.write (.rules j)]) := by
  intro ds
  induction ds with
  | nil =>
      intro i j
      exact ⟨fun _ => rfl, Or.inl rfl⟩
  | cons d ds ih =>
      intro i j
      cases d with
      | missing =>
          rw [show (processRules act i (Doc.missing :: ds)).2.1 =
              Ev.warnMissing i :: (processRules act (i + 1) ds).2.1 from rfl]
          rw [bwFor_cons_skip _ _ _ (by simp)]
          exact ⟨fun hj => (ih (i + 1) j).1 (Nat.lt_succ_of_lt hj), (ih (i + 1) j).2⟩
      | malformed =>
          rw [show (processRules act i (Doc.malformed :: ds)).2.1 =
              [Ev.backup (.rules i), Ev.parseError i] from rfl]
          by_cases hij : j = i
          · subst hij
            rw [bwFor_cons_keep _ _ _ (by simp), bwFor_cons_skip _ _ _ (by simp),
              bwFor_nil]
            exact ⟨fun hj => absurd hj (lt_irrefl j), Or.inr (Or.inl rfl)⟩
          · have hne : (Fid.rules i : Fid) ≠ Fid.rules j := by
              intro hc
              exact hij (by cases hc; rfl)
            rw [bwFor_cons_skip _ _ _ (by simp [hne]),
              bwFor_cons_skip _ _ _ (by simp), bwFor_nil]
            exact ⟨fun _ => rfl, Or.inl rfl⟩
      | parsed x =>
          by_cases hb : hasBaseLayout x = true
          · rw [show (processRules act i (Doc.parsed x :: ds)).2.1 =
                Ev.backup (.rules i) :: Ev.write (.rules i) ::
                  (processRules act (i + 1) ds).2.1 from by
                simp [processRules, hb]]
            by_cases hij : j = i
            · subst hij
              rw [bwFor_cons_keep _ _ _ (by simp), bwFor_cons_keep _ _ _ (by simp)]
              rw [(ih (j + 1) j).1 (Nat.lt_succ_self j)]
              exact ⟨fun hj => absurd hj (lt_irrefl j), Or.inr (Or.inr rfl)⟩
            · have hne : (Fid.rules i : Fid) ≠ Fid.rules j := by
                intro hc
                exact hij (by cases hc; rfl)
              rw [bwFor_cons_skip _ _ _ (by simp [hne]),
                bwFor_cons_skip _ _ _ (by simp [hne])]
              exact ⟨fun hj => (ih (i + 1) j).1 (Nat.lt_succ_of_lt hj), (ih (i + 1) j).2⟩
          · rw [show (processRules act i (Doc.parsed x :: ds)).2.1 =
                Ev.backup (.rules i) :: Ev.skipNoBase i ::
                  (processRules act (i + 1) ds).2.1 from by
                simp [processRules, hb]]
            by_cases hij : j = i
            · subst hij
              rw [bwFor_cons_keep _ _ _ (by simp), bwFor_cons_skip _ _ _ (by simp)]
              rw [(ih (j + 1) j).1 (Nat.lt_succ_self j)]
              exact ⟨fun hj => absurd hj (lt_irrefl j), Or.inr (Or.inl rfl)⟩
            · have hne : (Fid.rules i : Fid) ≠ Fid.rules j := by
                intro hc
                exact hij (by cases hc; rfl)
              rw [bwFor_cons_skip _ _ _ (by simp [hne]),
                bwFor_cons_skip _ _ _ (by simp)]
              exact ⟨fun hj => (ih (i + 1) j).1 (Nat.lt_succ_of_lt hj), (ih (i + 1) j).2⟩

/-! ### Equation helpers for concrete evaluation -/

theorem findFirstL_nil (p : XML → Bool) : findFirstL p [] = none := by
  rw [findFirstL]

theorem findFirstL_cons (p : XML → Bool) (c : XML) (cs : List XML) :
    findFirstL p (c :: cs) =
      if p c then some c
      else
        match findFirstL p c.children with
        | some r => some r
        | none => findFirstL p cs := by
  cases c with
  | elem t x ch =>
      rw [findFirstL]
      rfl

theorem bwFor_append (f : Fid) (a b : List Ev) :
    bwFor f (a ++ b) = bwFor f a ++ bwFor f b := by
  unfold bwFor
  exact List.filter_append _ _

theorem bwFor_processRules_flat (act : PatchAction) (ds : List Doc) (i : Nat) :
    bwFor .flat (processRules act i ds).2.1 = [] := by
  unfold bwFor
  rw [List.filter_eq_nil_iff]
  intro e he
  have h2 := processRules_no_flat act ds i e he
  simp only [Bool.or_eq_true, not_or]
  constructor
  · simpa using h2.1
  · simpa using h2.2

theorem bwFor_rules_processRules (act : PatchAction) (ds : List Doc) (i j : Nat) :
    bwFor (.rules j) (processRules act i ds).2.1 = [] ∨
    bwFor (.rules j) (processRules act i ds).2.1 = [Ev.backup (.rules j)] ∨
    bwFor (.rules j) (processRules act i ds).2.1 =
      [Ev.backup (.rules j), Ev.write (.rules j)] :=
  (processRules_bw act ds i j).2

/-! ### Example documents used by the witnesses -/

/-- A base layout carrying one non-managed variant. -/
def layEx : XML :=
  .elem "layout" none
    [.elem "configItem" none [.elem "name" (some "us") []],
     .elem "variantList" none [newVariant "intl" "English (intl.)"]]

def docEx : XML :=
  .elem "xkbConfigRegistry" none [.elem "layoutList" none [layEx]]

/-- A base layout without a variantList child. -/
def layNoVL : XML :=
  .elem "layout" none [.elem "configItem" none [.elem "name" (some "us") []]]

def docNoVL : XML :=
  .elem "xkbConfigRegistry" none [.elem "layoutList" none [layNoVL]]

/-- A document without any base layout. -/
def docNoBase : XML :=
  .elem "xkbConfigRegistry" none []

/-! ### The claims -/

/-- Claim C1, counterexample: install is not idempotent on the flat
symbols file, not even modulo whitespace: starting from the empty file
with blob x, one run leaves one x, two runs leave two. -/
theorem c1_counterexample :
    dropWS (flatInstall (flatInstall "" "x") "x") ≠ dropWS (flatInstall "" "x") := by
  decide

/-- Claim C1 (amended): running Install() twice in succession yields
rules documents identical to running it once (the reconciliation is
idempotent on every document), but the flat symbols file is not
restored: the second run grows the one-run content by the two newline
separators and the source blob again, because Append writes blindly
without reading existing content. -/
theorem c1_theorem :
    (∀ d : XML, modifyDoc .install (modifyDoc .install d) = modifyDoc .install d) ∧
    (∀ content blob : String,
      flatInstall (flatInstall content blob) blob =
        flatInstall content blob ++ "\n\n" ++ blob) :=
  ⟨modifyDoc_install_idem, fun _ _ => rfl⟩

/-- Claim C2, counterexample: on a line whose stripped content starts
with but does not equal the closing marker, the code scanner closes the
managed block (and keeps the following line) while the scanner described
by the claim stays inside the block and drops everything. -/
theorem c2_counterexample :
    removeScan false ["xkb_symbols \"carbon\"", "\x7d;x", "keep"] ≠
      claimScan .outside ["xkb_symbols \"carbon\"", "\x7d;x", "keep"] := by
  decide

/-- Claim C2 (amended): the remove scanner drops a line whose trimmed
content starts with a managed block header, drops every subsequent line
until a line whose trimmed content STARTS WITH (not equals) the closing
marker, drops that line too while clearing the inside flag, and retains
every other line in original order: it coincides with the two-state
machine specScan started outside a block. -/
theorem c2_theorem (ls : List String) :
    removeScan false ls = specScan .outside ls :=
  (removeScan_eq_specScan ls).1

/-- Claim C5: after the per-descriptor reconciliation step on the
variant-list children, exactly zero (remove) or one (install) child
matches the descriptor id, never more, whatever duplicate or stale
entries were present; on install the surviving entry is the fresh
element newVariant id displayName (which by construction carries
configItem/name = id and configItem/description = displayName),
appended as the last child. -/
theorem c5_theorem (cs : List XML) (nd : String × String) :
    (reconcile .remove cs nd).countP (isVariantNamed nd.1) = 0 ∧
    (reconcile .install cs nd).countP (isVariantNamed nd.1) = 1 ∧
    (reconcile .install cs nd).getLast? = some (newVariant nd.1 nd.2) :=
  ⟨reconcile_remove_count cs nd, reconcile_install_count cs nd,
    reconcile_install_getLast cs nd⟩

/-- Claim C3: for every n of at least 1, running Remove() after n
successive runs of Install() leaves the flat symbols file without any
line matching a managed block header (hence with zero managed blocks,
since a block is identified by its header line), and leaves the
base-layout variant list of every rules document with zero entries whose
configItem/name equals a managed descriptor id. -/
theorem c3_theorem (orig blob : String) (d : XML) (n : Nat) (h : 1 ≤ n) :
    (∀ l ∈ removeScan false (readLines (flatAfterInstalls n orig blob)),
      isManagedHeader l = false) ∧
    managedVariantCount (modifyDoc .remove (docAfterInstalls n d)) = 0 :=
  ⟨fun l hl => removeScan_no_managed _ false l hl, managedVariantCount_remove _⟩

/-- Witness for C3 at n = 1 on a small concrete state. -/
theorem c3_witness :
    1 ≤ 1 ∧
    ((∀ l ∈ removeScan false (readLines (flatAfterInstalls 1 "default" "blob")),
      isManagedHeader l = false) ∧
    managedVariantCount (modifyDoc .remove (docAfterInstalls 1 docEx)) = 0) :=
  ⟨by decide, c3_theorem "default" "blob" docEx 1 (by decide)⟩

/-- The file of the C4 counterexample: one single block, with a
non-managed header, whose body contains a line that happens to match
the managed-header test. -/
def frBlock : BlockItem :=
  .block "xkb_symbols \"fr\" \x7b" ["xkb_symbols \"carbon\" x;"] "\x7d;"

/-- Claim C4, counterexample: the remove operation does not leave every
non-managed block byte-identical: a file holding exactly one block with
the non-managed header fr is truncated to its header line, because the
scanner misreads the interior line as a managed header. -/
theorem c4_counterexample :
    isManagedItem frBlock = false ∧
    removeScan false (itemLines frBlock) ≠ itemLines frBlock := by
  constructor
  · decide
  · decide

/-- Claim C4 (amended): preservation of non-managed content holds under
the proviso (the accepted simplification of the spec) that no line
outside managed blocks matches the managed-header test except block
headers themselves: the remove scan then returns exactly the lines of
the non-managed items, byte-identical and in order; install leaves the
existing flat content as an untouched prefix; on the XML side any patch
leaves the document literally unchanged outside the first base-layout
subtree, and inside the base variant list all children that are not
managed variant entries are preserved byte-identically and in order. -/
theorem c4_theorem (items : List BlockItem) (h : items.all itemOK = true)
    (content blob : String) (act : PatchAction) (d : XML) (cs : List XML) :
    removeScan false (items.flatMap itemLines) =
      (items.filter fun it => !isManagedItem it).flatMap itemLines ∧
    flatInstall content blob = content ++ ("\n\n" ++ blob) ∧
    eraseAtFirstBase (modifyDoc act d) = eraseAtFirstBase d ∧
    (reconcileAll act cs).filter (fun v => !isManagedVariant v) =
      cs.filter (fun v => !isManagedVariant v) := by
  refine ⟨removeScan_items items h, ?_, eraseAtFirstBase_modifyDoc act d,
    reconcileAll_nonmanaged act cs⟩
  unfold flatInstall
  rw [String.append_assoc]

/-- The well-formed file of the C4 witness: a plain line followed by a
managed block. -/
def itemsEx : List BlockItem :=
  [.plainLine "// symbols file",
   .block "xkb_symbols \"carbon\" \x7b" ["    include \"us(basic)\""] "\x7d;"]

/-- Witness for C4 on a concrete well-formed file, patch action remove,
and a concrete document. -/
theorem c4_witness :
    itemsEx.all itemOK = true ∧
    (removeScan false (itemsEx.flatMap itemLines) =
      (itemsEx.filter fun it => !isManagedItem it).flatMap itemLines ∧
    flatInstall "content" "blob" = "content" ++ ("\n\n" ++ "blob") ∧
    eraseAtFirstBase (modifyDoc .remove docEx) = eraseAtFirstBase docEx ∧
    (reconcileAll .remove []).filter (fun v => !isManagedVariant v) =
      ([] : List XML).filter (fun v => !isManagedVariant v)) :=
  ⟨by decide, c4_theorem itemsEx (by decide) "content" "blob" .remove docEx []⟩

/-- Claim C6: on remove, a rules document whose base layout has no
variantList child is left untouched (the descriptor loop finds nothing
to collect and deletes nothing, so the tree is structurally unchanged)
and the run reports no removal for it: zero Removed-variant messages
are printed, the no-op outcome. -/
theorem c6_theorem (d lay : XML) (h1 : locateBase d = some lay)
    (h2 : firstVariantList lay = none) :
    modifyDoc .remove d = d ∧ removedMessageCount d = 0 := by
  refine ⟨modifyDoc_remove_noVL d lay h1 h2, ?_⟩
  have hbvc : baseVariantChildren d = [] := by
    unfold baseVariantChildren
    rw [h1]
    show vlChildren lay = []
    unfold vlChildren
    rw [h2]
  unfold removedMessageCount
  rw [hbvc]
  rfl

/-- Witness for C6 on a concrete document whose base layout lacks a
variantList. -/
theorem c6_witness :
    locateBase docNoVL = some layNoVL ∧ firstVariantList layNoVL = none ∧
    (modifyDoc .remove docNoVL = docNoVL ∧ removedMessageCount docNoVL = 0) := by
  have e1 : isBaseLayout (XML.elem "layoutList" none [layNoVL]) = false := by decide
  have e2 : isBaseLayout layNoVL = true := by decide
  have h1 : locateBase docNoVL = some layNoVL := by
    show findFirstL isBaseLayout [XML.elem "layoutList" none [layNoVL]] = some layNoVL
    rw [findFirstL_cons, if_neg (by rw [e1]; simp)]
    rw [show (XML.elem "layoutList" none [layNoVL]).children = [layNoVL] from rfl]
    rw [findFirstL_cons, if_pos e2]
  have h2 : firstVariantList layNoVL = none := rfl
  exact ⟨h1, h2, c6_theorem docNoVL layNoVL h1 h2⟩

/-- The run state of the C7 counterexample: one rules document without
the base layout. -/
def sNoBase : Sys :=
  { flat := none, docs := [Doc.parsed docNoBase], srcBlob := some "blob" }

/-- Claim C7, counterexample: backups are not created only for files the
run mutates: running remove on a rules document lacking the base layout
backs the file up and then skips it without ever writing it. -/
theorem c7_counterexample :
    Ev.backup (.rules 0) ∈ (removeRun sNoBase).2.1 ∧
    Ev.write (.rules 0) ∉ (removeRun sNoBase).2.1 := by
  have hb : hasBaseLayout docNoBase = false := by
    unfold hasBaseLayout locateBase
    rw [show docNoBase.children = ([] : List XML) from rfl, findFirstL_nil]
    rfl
  have hev : (removeRun sNoBase).2.1 = [Ev.backup (.rules 0), Ev.skipNoBase 0] := by
    simp [removeRun, sNoBase, processRules, hb]
  rw [hev]
  exact ⟨by decide, by decide⟩

/-- Claim C7 (amended): in every run, each file receives at most one
backup, every backup precedes the write to its file when that write
happens, and every written pre-existing file was backed up first: the
flat file is backed up exactly when it already exists (a freshly created
flat target has no backup), and each processed rules file shows the
backup-then-write pattern; but a backup may also be created for a rules
document that is then skipped (no base layout) or aborts on a parse
failure, so backups are not only for mutated files; the tool never reads
a backup back (no operation of either run consults one). -/
theorem c7_theorem (s : Sys) (b : String) (h : s.srcBlob = some b) :
    bwFor .flat (installRun s).2.1 =
      (match s.flat with
       | some _ => [Ev.backup .flat, Ev.write .flat]
       | none => [Ev.write .flat]) ∧
    bwFor .flat (removeRun s).2.1 =
      (match s.flat with
       | some _ => [Ev.backup .flat, Ev.write .flat]
       | none => []) ∧
    (∀ j, bwFor (.rules j) (installRun s).2.1 = [] ∨
      bwFor (.rules j) (installRun s).2.1 = [Ev.backup (.rules j)] ∨
      bwFor (.rules j) (installRun s).2.1 =
        [Ev.backup (.rules j), Ev.write (.rules j)]) ∧
    (∀ j, bwFor (.rules j) (removeRun s).2.1 = [] ∨
      bwFor (.rules j) (removeRun s).2.1 = [Ev.backup (.rules j)] ∨
      bwFor (.rules j) (removeRun s).2.1 =
        [Ev.backup (.rules j), Ev.write (.rules j)]) := by
  have hiev : (installRun s).2.1 =
      (match s.flat with
       | some _ => [Ev.backup .flat, Ev.write .flat]
       | none => [Ev.write .flat]) ++ (processRules .install 0 s.docs).2.1 := by
    unfold installRun
    rw [h]
  have hrev : (removeRun s).2.1 =
      (match s.flat with
       | some _ => [Ev.backup .flat, Ev.write .flat]
       | none => ([] : List Ev)) ++ (processRules .remove 0 s.docs).2.1 := by
    unfold removeRun
    cases hsf : s.flat <;> rfl
  refine ⟨?_, ?_, ?_, ?_⟩
  · rw [hiev, bwFor_append, bwFor_processRules_flat, List.append_nil]
    cases hsf : s.flat <;> rfl
  · rw [hrev, bwFor_append, bwFor_processRules_flat, List.append_nil]
    cases hsf : s.flat <;> rfl
  · intro j
    rw [hiev, bwFor_append]
    rw [show bwFor (.rules j)
        (match s.flat with
         | some _ => [Ev.backup .flat, Ev.write .flat]
         | none => [Ev.write .flat]) = [] from by cases hsf : s.flat <;> rfl]
    rw [List.nil_append]
    exact bwFor_rules_processRules .install s.docs 0 j
  · intro j
    rw [hrev, bwFor_append]
    rw [show bwFor (.rules j)
        (match s.flat with
         | some _ => [Ev.backup .flat, Ev.write .flat]
         | none => ([] : List Ev)) = [] from by cases hsf : s.flat <;> rfl]
    rw [List.nil_append]
    exact bwFor_rules_processRules .remove s.docs 0 j

/-- Claim C8: a rules document with no base layout is left with its
content unchanged by Install() (the document is not even rewritten), a
skip is reported for it, the remaining documents are still processed,
and the run exits 0 when no document is malformed. -/
theorem c8_theorem (s : Sys) (b : String) (pre post : List Doc) (x : XML)
    (h1 : s.srcBlob = some b) (h2 : s.docs = pre ++ Doc.parsed x :: post)
    (h3 : hasBaseLayout x = false) (h4 : noMalformed s.docs = true) :
    (installRun s).1.docs =
      (processRules .install 0 pre).1 ++
        Doc.parsed x :: (processRules .install (pre.length + 1) post).1 ∧
    Ev.skipNoBase pre.length ∈ (installRun s).2.1 ∧
    (installRun s).2.2 = 0 := by
  have hnm : noMalformed pre = true ∧ noMalformed post = true := by
    rw [h2] at h4
    unfold noMalformed at h4 ⊢
    rw [List.all_append, Bool.and_eq_true] at h4
    rcases h4 with ⟨ha, hb2⟩
    rw [List.all_cons, Bool.and_eq_true] at hb2
    exact ⟨ha, hb2.2⟩
  have hhead : processRules .install pre.length (Doc.parsed x :: post) =
      (Doc.parsed x :: (processRules .install (pre.length + 1) post).1,
       Ev.backup (.rules pre.length) :: Ev.skipNoBase pre.length ::
         (processRules .install (pre.length + 1) post).2.1,
       (processRules .install (pre.length + 1) post).2.2) := by
    simp [processRules, h3]
  have hPR := processRules_append .install pre (Doc.parsed x :: post) 0 hnm.1
  rw [Nat.zero_add, hhead] at hPR
  have hdocs : (installRun s).1.docs = (processRules .install 0 s.docs).1 := by
    unfold installRun
    rw [h1]
  have hev : (installRun s).2.1 =
      (match s.flat with
       | some _ => [Ev.backup .flat, Ev.write .flat]
       | none => [Ev.write .flat]) ++ (processRules .install 0 s.docs).2.1 := by
    unfold installRun
    rw [h1]
  have hexit : (installRun s).2.2 =
      (if (processRules .install 0 s.docs).2.2 then 1 else 0) := by
    unfold installRun
    rw [h1]
  refine ⟨?_, ?_, ?_⟩
  · rw [hdocs, h2, hPR]
  · rw [hev, h2, hPR]
    simp
  · rw [hexit, h2, hPR]
    rw [show ((processRules .install 0 pre).1 ++
        (Doc.parsed x :: (processRules .install (pre.length + 1) post).1),
        (processRules .install 0 pre).2.1 ++
          (Ev.backup (.rules pre.length) :: Ev.skipNoBase pre.length ::
            (processRules .install (pre.length + 1) post).2.1),
        (processRules .install (pre.length + 1) post).2.2).2.2 =
        (processRules .install (pre.length + 1) post).2.2 from rfl]
    rw [processRules_no_abort .install post (pre.length + 1) hnm.2]
    rfl

/-- The run state of the C8 witness: a single rules document with no
base layout, and the source blob present. -/
def s8 : Sys :=
  { flat := none, docs := [Doc.parsed docNoBase], srcBlob := some "blob" }

/-- Witness for C8 on the concrete state s8 with empty pre and post. -/
theorem c8_witness :
    (s8.srcBlob = some "blob" ∧ s8.docs = [] ++ Doc.parsed docNoBase :: [] ∧
      hasBaseLayout docNoBase = false ∧ noMalformed s8.docs = true) ∧
    ((installRun s8).1.docs =
      (processRules .install 0 ([] : List Doc)).1 ++
        Doc.parsed docNoBase ::
          (processRules .install (List.length ([] : List Doc) + 1) ([] : List Doc)).1 ∧
    Ev.skipNoBase (List.length ([] : List Doc)) ∈ (installRun s8).2.1 ∧
    (installRun s8).2.2 = 0) := by
  have h3 : hasBaseLayout docNoBase = false := by
    unfold hasBaseLayout locateBase
    rw [show docNoBase.children = ([] : List XML) from rfl, findFirstL_nil]
    rfl
  exact ⟨⟨rfl, rfl, h3, by decide⟩,
    c8_theorem s8 "blob" [] [] docNoBase rfl rfl h3 (by decide)⟩

/-- Claim C9: a rules document failing to parse is fatal: both runs
print the parse failure and exit with code 1, and the documents after
the malformed one are left untouched (never processed). -/
theorem c9_theorem (s : Sys) (b : String) (pre post : List Doc)
    (h1 : s.srcBlob = some b) (h2 : s.docs = pre ++ Doc.malformed :: post)
    (h3 : noMalformed pre = true) :
    (installRun s).2.2 = 1 ∧ (removeRun s).2.2 = 1 ∧
    (installRun s).1.docs =
      (processRules .install 0 pre).1 ++ Doc.malformed :: post ∧
    (removeRun s).1.docs =
      (processRules .remove 0 pre).1 ++ Doc.malformed :: post ∧
    Ev.parseError pre.length ∈ (installRun s).2.1 ∧
    Ev.parseError pre.length ∈ (removeRun s).2.1 := by
  have hPRi := processRules_append .install pre (Doc.malformed :: post) 0 h3
  have hPRr := processRules_append .remove pre (Doc.malformed :: post) 0 h3
  rw [Nat.zero_add] at hPRi hPRr
  have hmali : processRules .install pre.length (Doc.malformed :: post) =
      (Doc.malformed :: post,
        [Ev.backup (.rules pre.length), Ev.parseError pre.length], true) := rfl
  have hmalr : processRules .remove pre.length (Doc.malformed :: post) =
      (Doc.malformed :: post,
        [Ev.backup (.rules pre.length), Ev.parseError pre.length], true) := rfl
  rw [hmali] at hPRi
  rw [hmalr] at hPRr
  have hidocs : (installRun s).1.docs = (processRules .install 0 s.docs).1 := by
    unfold installRun
    rw [h1]
  have hiev : (installRun s).2.1 =
      (match s.flat with
       | some _ => [Ev.backup .flat, Ev.write .flat]
       | none => [Ev.write .flat]) ++ (processRules .install 0 s.docs).2.1 := by
    unfold installRun
    rw [h1]
  have hiexit : (installRun s).2.2 =
      (if (processRules .install 0 s.docs).2.2 then 1 else 0) := by
    unfold installRun
    rw [h1]
  have hrdocs : (removeRun s).1.docs = (processRules .remove 0 s.docs).1 := rfl
  have hrev2 : (removeRun s).2.1 =
      (match s.flat with
       | none => ([] : List Ev)
       | some content =>
           [Ev.backup .flat, Ev.write .flat]) ++ (processRules .remove 0 s.docs).2.1 := by
    unfold removeRun
    cases hsf : s.flat <;> rfl
  have hrexit : (removeRun s).2.2 =
      (if (processRules .remove 0 s.docs).2.2 then 1 else 0) := rfl
  refine ⟨?_, ?_, ?_, ?_, ?_, ?_⟩
  · rw [hiexit, h2, hPRi]
    rfl
  · rw [hrexit, h2, hPRr]
    rfl
  · rw [hidocs, h2, hPRi]
  · rw [hrdocs, h2, hPRr]
  · rw [hiev, h2, hPRi]
    simp
  · rw [hrev2, h2, hPRr]
    simp

/-- The run state of the C9 witness: one malformed rules document. -/
def s9 : Sys :=
  { flat := none, docs := [Doc.malformed], srcBlob := some "blob" }

/-- Witness for C9 on the concrete state s9 with empty pre and post. -/
theorem c9_witness :
    (s9.srcBlob = some "blob" ∧
      s9.docs = [] ++ Doc.malformed :: [] ∧ noMalformed [] = true) ∧
    ((installRun s9).2.2 = 1 ∧ (removeRun s9).2.2 = 1 ∧
    (installRun s9).1.docs =
      (processRules .install 0 ([] : List Doc)).1 ++ Doc.malformed :: [] ∧
    (removeRun s9).1.docs =
      (processRules .remove 0 ([] : List Doc)).1 ++ Doc.malformed :: [] ∧
    Ev.parseError (List.length ([] : List Doc)) ∈ (installRun s9).2.1 ∧
    Ev.parseError (List.length ([] : List Doc)) ∈ (removeRun s9).2.1) :=
  ⟨⟨rfl, rfl, by decide⟩, c9_theorem s9 "blob" [] [] rfl rfl (by decide)⟩

/-- Claim C10: when the flat symbols file does not exist, Remove() skips
the whole flat-file cleaning step: the file stays absent, no backup or
write event concerning it occurs, the rules documents are still
processed exactly as modify_xkb_rules does, and the exit code is 0 when
no rules document is malformed. -/
theorem c10_theorem (s : Sys) (h : s.flat = none) :
    (removeRun s).1.flat = none ∧
    (∀ e ∈ (removeRun s).2.1, e ≠ Ev.backup .flat ∧ e ≠ Ev.write .flat) ∧
    (removeRun s).1.docs = (processRules .remove 0 s.docs).1 ∧
    (removeRun s).2.1 = (processRules .remove 0 s.docs).2.1 ∧
    (noMalformed s.docs = true → (removeRun s).2.2 = 0) := by
  have hflat : (removeRun s).1.flat = none := by
    unfold removeRun
    rw [h]
  have hev : (removeRun s).2.1 = (processRules .remove 0 s.docs).2.1 := by
    unfold removeRun
    rw [h]
    rfl
  refine ⟨hflat, ?_, rfl, hev, ?_⟩
  · intro e he
    rw [hev] at he
    exact processRules_no_flat .remove s.docs 0 e he
  · intro hnm
    have hab := processRules_no_abort .remove s.docs 0 hnm
    show (if (processRules .remove 0 s.docs).2.2 then 1 else 0) = 0
    rw [hab]
    rfl

/-- The run state of the C10 witness: flat file absent, one well-formed
rules document. -/
def s10 : Sys :=
  { flat := none, docs := [Doc.parsed docEx], srcBlob := some "blob" }

/-- Witness for C10 on the concrete state s10. -/
theorem c10_witness :
    s10.flat = none ∧
    ((removeRun s10).1.flat = none ∧
    (∀ e ∈ (removeRun s10).2.1, e ≠ Ev.backup .flat ∧ e ≠ Ev.write .flat) ∧
    (removeRun s10).1.docs = (processRules .remove 0 s10.docs).1 ∧
    (removeRun s10).2.1 = (processRules .remove 0 s10.docs).2.1 ∧
    (noMalformed s10.docs = true → (removeRun s10).2.2 = 0)) :=
  ⟨rfl, c10_theorem s10 rfl⟩

/-- The run state of the C7 witness: flat file present, one well-formed
rules document, source blob present. -/
def s7 : Sys :=
  { flat := some "content", docs := [Doc.parsed docEx], srcBlob := some "blob" }

/-- Witness for C7 on the concrete state s7. -/
theorem c7_witness :
    s7.srcBlob = some "blob" ∧
    (bwFor .flat (installRun s7).2.1 =
      (match s7.flat with
       | some _ => [Ev.backup .flat, Ev.write .flat]
       | none => [Ev.write .flat]) ∧
    bwFor .flat (removeRun s7).2.1 =
      (match s7.flat with
       | some _ => [Ev.backup .flat, Ev.write .flat]
       | none => []) ∧
    (∀ j, bwFor (.rules j) (installRun s7).2.1 = [] ∨
      bwFor (.rules j) (installRun s7).2.1 = [Ev.backup (.rules j)] ∨
      bwFor (.rules j) (installRun s7).2.1 =
        [Ev.backup (.rules j), Ev.write (.rules j)]) ∧
    (∀ j, bwFor (.rules j) (removeRun s7).2.1 = [] ∨
      bwFor (.rules j) (removeRun s7).2.1 = [Ev.backup (.rules j)] ∨
      bwFor (.rules j) (removeRun s7).2.1 =
        [Ev.backup (.rules j), Ev.write (.rules j)])) :=
  ⟨rfl, c7_theorem s7 "blob" rfl⟩
